import Mathlib

/-!
Verification of the WhatsCooking exploratory-analysis script
(src/whats_cooking/exploratory_analysis.py).

The Python code is shallowly embedded as executable Lean definitions:

* Python `collections.Counter` objects are association lists
  `List (String × Nat)` kept in key insertion order, exactly as Python
  dicts preserve insertion order.  `mkCounter` embeds `Counter(list)`,
  `counterAdd` embeds `Counter.__add__` (which keeps only positive
  counts and iterates first over the keys of the left operand, then the
  fresh keys of the right operand).
* A pandas Series of ingredient lists is a `List (List String)`.
* `numpy.array_split` is embedded by `array_split`, using numpy's
  published sizes: `len % n` chunks of size `len / n + 1` followed by
  `n - len % n` chunks of size `len / n`.
* `parallel_counting(data) = data.map(Counter).sum()` returns the
  integer `0` when the chunk is empty (the sum of an empty pandas
  Series) and a Counter otherwise; the embedding returns a `PyVal` to
  keep both outcomes.  The outer `sum(counter_list, Counter())` raises
  `TypeError` when it meets that integer (`Counter.__add__` returns
  `NotImplemented` on non-Counter arguments); the embedding returns
  `Except.error` there.
* `pd.Series(...).sort_values(ascending=False)` sorts the counter by
  descending count.  pandas uses an unstable quicksort, so the order of
  equal counts is implementation noise; the embedding uses
  `List.insertionSort` with the reflexive total order `descByCount`,
  which realises one admissible tie order.
* `cpu_count()` is an environment value; it is passed explicitly as the
  `cores` argument.
* Strings handed to the name cleaner are sequences of Unicode code
  points, modelled as `List Nat` (`PyStr`); the case conversions embed
  the ASCII fragment of Python `str.title()`.
* The filesystem seen by `create_folder` is the set of existing
  directories, each directory being its list of path components;
  `os.makedirs` creates the directory and all its ancestors.
-/

namespace WhatsCooking

/-! ## Counters (collections.Counter) -/

/-- A Python `Counter`: association list in key insertion order. -/
abbrev Counter := List (String × Nat)

/-- Dict lookup with default 0, i.e. `Counter.__getitem__`. -/
def counterGet : Counter → String → Nat
  | [], _ => 0
  | p :: ps, x => if p.1 = x then p.2 else counterGet ps x

/-- Membership test `x in counter`. -/
def counterMem : Counter → String → Bool
  | [], _ => false
  | p :: ps, x => if p.1 = x then true else counterMem ps x

/-- One step of `Counter(iterable)`: `d[elem] = d.get(elem, 0) + 1`,
appending a fresh key at the end, as Python dicts do. -/
def counterIncr (c : Counter) (x : String) : Counter :=
  if counterMem c x then
    c.map (fun p => if p.1 = x then (p.1, p.2 + 1) else p)
  else
    c ++ [(x, 1)]

/-- Embeds `Counter(l)` for a list `l` of strings. -/
def mkCounter (l : List String) : Counter :=
  l.foldl counterIncr []

/-- Embeds `Counter.__add__`: counts of `a` plus counts of `b`, keeping
only positive results; keys of `a` first, then the keys of `b` that are
not in `a`. -/
def counterAdd (a b : Counter) : Counter :=
  a.filterMap (fun p =>
    if 0 < p.2 + counterGet b p.1 then some (p.1, p.2 + counterGet b p.1) else none)
  ++ b.filter (fun p => !counterMem a p.1 && decide (0 < p.2))

/-- Values reaching the reduce step of `ingredients_counter`: either the
integer 0 that pandas returns as the sum of an empty Series, or a
Counter. -/
inductive PyVal where
  | int : Int → PyVal
  | counter : Counter → PyVal
deriving DecidableEq

/-- Message of the Python exception raised by `Counter() + 0`. -/
def typeError : String := "TypeError"

/-- Embeds `sum(counter_list, Counter())`, the left fold of `+` over the
pool results starting from `Counter()`.  Adding the integer 0 returned
for an empty chunk raises `TypeError`. -/
def pySum : Counter → List PyVal → Except String Counter
  | acc, [] => Except.ok acc
  | _, PyVal.int _ :: _ => Except.error typeError
  | acc, PyVal.counter c :: rest => pySum (counterAdd acc c) rest

/-! ## numpy.array_split -/

/-- Chunk sizes used by `numpy.array_split`: `len % n` sections of size
`len / n + 1` followed by `n - len % n` sections of size `len / n`. -/
def splitSizes (len n : Nat) : List Nat :=
  List.replicate (len % n) (len / n + 1) ++ List.replicate (n - len % n) (len / n)

/-- Cuts consecutive chunks of the given sizes from the front of a list. -/
def takeChunks {α : Type} : List α → List Nat → List (List α)
  | _, [] => []
  | l, s :: ss => l.take s :: takeChunks (l.drop s) ss

/-- Embeds `numpy.array_split(data, n)`. -/
def array_split {α : Type} (data : List α) (n : Nat) : List (List α) :=
  takeChunks data (splitSizes data.length n)

/-! ## The parallel ingredient counter -/

/-- Embeds `parallel_counting(data) = data.map(Counter).sum()`.  The sum
of an empty pandas Series is the integer 0; otherwise numpy reduces the
Counters with `+` from the left. -/
def parallel_counting (chunk : List (List String)) : PyVal :=
  match chunk.map mkCounter with
  | [] => PyVal.int 0
  | c :: cs => PyVal.counter (cs.foldl counterAdd c)

/-- Descending-count order used by `sort_values(ascending=False)`. -/
abbrev descByCount (a b : String × Nat) : Prop := b.2 ≤ a.2

instance : IsTotal (String × Nat) descByCount :=
  ⟨fun a b => Nat.le_total b.2 a.2⟩

instance : IsTrans (String × Nat) descByCount :=
  ⟨fun _ _ _ h1 h2 => Nat.le_trans h2 h1⟩

/-- Embeds `ingredients_counter(data)` run with `cores` workers: split
into `cores` chunks, count each chunk, reduce with
`sum(counter_list, Counter())`, and sort by descending count. -/
def ingredients_counter (cores : Nat) (data : List (List String)) : Except String Counter :=
  match pySum [] ((array_split data cores).map parallel_counting) with
  | Except.error e => Except.error e
  | Except.ok total => Except.ok (List.insertionSort descByCount total)

/-! ## Name cleaning (clean_cuisine_names) -/

/-- A Python string: its sequence of Unicode code points. -/
abbrev PyStr := List Nat

/-- Code points of a Lean string literal, for readable statements. -/
def pyOfString (s : String) : PyStr :=
  s.toList.map Char.toNat

/-- ASCII lower-case letter test, the fragment of Python used here. -/
abbrev pyIsLower (c : Nat) : Prop := 97 ≤ c ∧ c ≤ 122

/-- ASCII upper-case letter test. -/
abbrev pyIsUpper (c : Nat) : Prop := 65 ≤ c ∧ c ≤ 90

/-- ASCII letter test. -/
abbrev pyIsAlpha (c : Nat) : Prop := pyIsUpper c ∨ pyIsLower c

/-- ASCII upper-casing of one code point. -/
def pyToUpper (c : Nat) : Nat := if pyIsLower c then c - 32 else c

/-- ASCII lower-casing of one code point. -/
def pyToLower (c : Nat) : Nat := if pyIsUpper c then c + 32 else c

/-- Recursion behind Python `str.title()` (ASCII fragment): a letter is
upper-cased when the previous character is not a letter and lower-cased
otherwise; non-letters pass through and break words. -/
def titleAux : Bool → PyStr → PyStr
  | _, [] => []
  | prevAlpha, c :: cs =>
    (if pyIsAlpha c then (if prevAlpha then pyToLower c else pyToUpper c) else c)
      :: titleAux (decide (pyIsAlpha c)) cs

/-- Embeds `name.title()`. -/
def pyTitle (s : PyStr) : PyStr := titleAux false s

/-- Embeds `s.find(ch)`: index of the first occurrence, `-1` if absent. -/
def pyFind (ch : Nat) : PyStr → Int
  | [] => -1
  | x :: xs => if x = ch then 0 else if pyFind ch xs = -1 then -1 else pyFind ch xs + 1

/-- Embeds `s.replace(old, new)` for one-character patterns. -/
def pyReplace (s : PyStr) (old new : Nat) : PyStr :=
  s.map (fun x => if x = old then new else x)

/-- Code point of the underscore character. -/
def underscore : Nat := 95

/-- Code point of the space character. -/
def space : Nat := 32

/-- Loop body of `clean_cuisine_names`: title-case the name, then
replace underscores by spaces, but only when `find` located the first
underscore at a strictly positive index. -/
def cleanName (name : PyStr) : PyStr :=
  let new_name := pyTitle name
  if 0 < pyFind underscore new_name then pyReplace new_name underscore space else new_name

/-- Embeds `clean_cuisine_names`: the accumulating `for` loop that
appends the cleaned form of each name. -/
def clean_cuisine_names (cuisine_names : List PyStr) : List PyStr :=
  cuisine_names.foldl (fun clean_names name => clean_names ++ [cleanName name]) []

/-! ## create_folder -/

/-- The filesystem as the set of existing directories; a directory is
its list of path components. -/
abbrev FileSys := List (List String)

/-- Embeds `os.path.exists`. -/
def os_path_exists (fs : FileSys) (p : List String) : Bool :=
  decide (p ∈ fs)

/-- Nonempty component-wise ancestors of a path, the path itself last. -/
def prefixesOf (p : List String) : List (List String) :=
  (List.range p.length).map (fun i => p.take (i + 1))

/-- Embeds `os.makedirs`: creates the directory together with every
missing ancestor. -/
def os_makedirs (fs : FileSys) (p : List String) : FileSys :=
  fs ++ (prefixesOf p).filter (fun q => !os_path_exists fs q)

/-- Embeds `create_folder`: create the directory when it does not exist
yet, and return 0. -/
def create_folder (fs : FileSys) (complete_path : List String) : FileSys × Nat :=
  if os_path_exists fs complete_path then (fs, 0)
  else (os_makedirs fs complete_path, 0)

/-! ## The loaded dataframe and the mutation in the main block -/

/-- The loaded recipe dataframe: the two columns the script reads, plus
any columns added later by item assignment. -/
structure DataFrame where
  cuisine : List String
  ingredients : List (List String)
  extraCols : List (String × List Nat)
deriving DecidableEq

/-- Column names of the dataframe, loaded columns first. -/
def dfColumns (df : DataFrame) : List String :=
  ["cuisine", "ingredients"] ++ df.extraCols.map Prod.fst

/-- Embeds pandas item assignment `df[name] = vals` for a column of
numbers: overwrite the column when present, append it otherwise. -/
def dfSetCol (df : DataFrame) (name : String) (vals : List Nat) : DataFrame :=
  if name ∈ df.extraCols.map Prod.fst then
    { df with extraCols := df.extraCols.map (fun p => if p.1 = name then (name, vals) else p) }
  else
    { df with extraCols := df.extraCols ++ [(name, vals)] }

/-- Embeds the main-block statement
`df[ n_ingredients ] = df[ ingredients ].str.len()`. -/
def add_n_ingredients (df : DataFrame) : DataFrame :=
  dfSetCol df (r"n_ingredients") (df.ingredients.map List.length)

/-! ## Cuisine frequencies and the pie chart input -/

/-- Embeds `df[ cuisine ].value_counts()`: occurrence counts of the
cuisine labels, sorted by descending count. -/
def value_counts (col : List String) : List (String × Nat) :=
  List.insertionSort descByCount (mkCounter col)

/-- The `top_cuisines` constant of the main block. -/
def top_cuisines : Nat := 5

/-- Embeds the pie-chart value list: the counts of the first
`top_cuisines` cuisines followed by the summed counts of the rest. -/
def pieValues (cuisine_values : List Nat) : List Nat :=
  cuisine_values.take top_cuisines ++ [(cuisine_values.drop top_cuisines).sum]

/-- Embeds the pie-chart label list: the first `top_cuisines` cleaned
names followed by the label Others. -/
def pieNames (cuisine_clean_names : List PyStr) : List PyStr :=
  cuisine_clean_names.take top_cuisines ++ [pyOfString (r"Others")]

/-- Decidable equality of `Except` results, used to evaluate the
counter on concrete inputs. -/
instance {ε α : Type} [DecidableEq ε] [DecidableEq α] : DecidableEq (Except ε α) := fun x y =>
  match x, y with
  | Except.error a, Except.error b =>
    if h : a = b then isTrue (by rw [h]) else isFalse (fun hc => by cases hc; exact h rfl)
  | Except.error _, Except.ok _ => isFalse (fun hc => by cases hc)
  | Except.ok _, Except.error _ => isFalse (fun hc => by cases hc)
  | Except.ok a, Except.ok b =>
    if h : a = b then isTrue (by rw [h]) else isFalse (fun hc => by cases hc; exact h rfl)

/-! ## Counter lemmas -/

/-- All counts of a counter are positive; true of every counter this
program builds. -/
def Pos (c : Counter) : Prop := ∀ p ∈ c, 0 < p.2

/-- The keys of a counter are pairwise distinct, as in a Python dict. -/
def Wf (c : Counter) : Prop := (c.map Prod.fst).Nodup

lemma counterMem_iff (c : Counter) (x : String) :
    counterMem c x = true ↔ x ∈ c.map Prod.fst := by
  induction c with
  | nil => simp [counterMem]
  | cons p ps ih =>
    by_cases h : p.1 = x
    · simp [counterMem, h]
    · have hne : ¬x = p.1 := fun hh => h hh.symm
      simp [counterMem, h, ih, hne]

lemma counterGet_eq_zero_of_not_mem (c : Counter) (x : String)
    (h : counterMem c x = false) : counterGet c x = 0 := by
  induction c with
  | nil => rfl
  | cons p ps ih =>
    by_cases hp : p.1 = x
    · rw [counterMem, if_pos hp] at h
      exact absurd h (by simp)
    · rw [counterMem, if_neg hp] at h
      rw [counterGet, if_neg hp]
      exact ih h

lemma counterGet_append (a b : Counter) (x : String) :
    counterGet (a ++ b) x = if counterMem a x then counterGet a x else counterGet b x := by
  induction a with
  | nil => simp [counterGet, counterMem]
  | cons p ps ih =>
    by_cases h : p.1 = x
    · simp [counterGet, counterMem, h]
    · simp [counterGet, counterMem, h, ih]

lemma counterGet_map_incr_ne (c : Counter) (x y : String) (hxy : x ≠ y) :
    counterGet (c.map (fun p => if p.1 = y then (p.1, p.2 + 1) else p)) x
      = counterGet c x := by
  induction c with
  | nil => rfl
  | cons p ps ih =>
    by_cases hp : p.1 = y
    · have hpx : ¬p.1 = x := by rw [hp]; exact fun h => hxy h.symm
      simp only [List.map_cons, if_pos hp, counterGet, hpx, if_neg hpx, if_false]
      exact ih
    · by_cases hx : p.1 = x
      · simp only [List.map_cons, if_neg hp, counterGet, if_pos hx]
      · simp only [List.map_cons, if_neg hp, counterGet, if_neg hx]
        exact ih

lemma counterGet_map_incr_eq (c : Counter) (y : String)
    (h : counterMem c y = true) :
    counterGet (c.map (fun p => if p.1 = y then (p.1, p.2 + 1) else p)) y
      = counterGet c y + 1 := by
  induction c with
  | nil => simp [counterMem] at h
  | cons p ps ih =>
    by_cases hp : p.1 = y
    · simp only [List.map_cons, if_pos hp, counterGet, if_pos hp]
    · rw [counterMem, if_neg hp] at h
      simp only [List.map_cons, if_neg hp, counterGet]
      exact ih h

lemma counterGet_incr (c : Counter) (y x : String) :
    counterGet (counterIncr c y) x = counterGet c x + if x = y then 1 else 0 := by
  unfold counterIncr
  by_cases hmem : counterMem c y
  · rw [if_pos hmem]
    by_cases hxy : x = y
    · rw [hxy, if_pos rfl, counterGet_map_incr_eq c y hmem]
    · rw [if_neg hxy, counterGet_map_incr_ne c x y hxy, Nat.add_zero]
  · rw [Bool.not_eq_true] at hmem
    rw [if_neg (by simp [hmem]), counterGet_append]
    by_cases hxy : x = y
    · have hcx : counterMem c x = false := by rw [hxy]; exact hmem
      rw [if_neg (by simp [hcx]), counterGet_eq_zero_of_not_mem c x hcx, hxy,
        if_pos rfl]
      simp [counterGet]
    · by_cases hcx : counterMem c x = true
      · rw [if_pos hcx, if_neg hxy, Nat.add_zero]
      · rw [Bool.not_eq_true] at hcx
        have hyx : ¬y = x := fun hh => hxy hh.symm
        rw [if_neg (by simp [hcx]), counterGet_eq_zero_of_not_mem c x hcx,
          if_neg hxy, Nat.add_zero]
        simp [counterGet, hyx]

lemma counterGet_foldl_incr (l : List String) (c : Counter) (x : String) :
    counterGet (l.foldl counterIncr c) x = counterGet c x + l.count x := by
  induction l generalizing c with
  | nil => simp
  | cons y ys ih =>
    rw [List.foldl_cons, ih, counterGet_incr, List.count_cons]
    by_cases hxy : x = y
    · simp only [hxy, if_pos rfl, beq_self_eq_true, if_true]
      omega
    · have hyx : ¬(y == x) = true := by
        simp only [beq_iff_eq]
        exact fun hh => hxy hh.symm
      simp only [if_neg hxy, if_neg hyx]
      omega

/-- The count computed by `Counter(l)` is the number of occurrences. -/
lemma counterGet_mkCounter (l : List String) (x : String) :
    counterGet (mkCounter l) x = l.count x := by
  simpa [counterGet] using counterGet_foldl_incr l [] x

lemma pos_counterIncr (c : Counter) (y : String) (h : Pos c) : Pos (counterIncr c y) := by
  unfold counterIncr
  split
  · intro p hp
    obtain ⟨q, hq, hqp⟩ := List.mem_map.mp hp
    by_cases hqy : q.1 = y
    · rw [if_pos hqy] at hqp
      subst hqp
      exact Nat.succ_pos _
    · rw [if_neg hqy] at hqp
      subst hqp
      exact h q hq
  · intro p hp
    rcases List.mem_append.mp hp with hl | hr
    · exact h p hl
    · simp at hr
      subst hr
      exact Nat.zero_lt_one

lemma pos_foldl_incr (l : List String) (c : Counter) (h : Pos c) :
    Pos (l.foldl counterIncr c) := by
  induction l generalizing c with
  | nil => exact h
  | cons y ys ih => exact ih _ (pos_counterIncr c y h)

lemma pos_mkCounter (l : List String) : Pos (mkCounter l) :=
  pos_foldl_incr l [] (fun p hp => absurd hp (List.not_mem_nil p))

lemma keys_map_incr (c : Counter) (y : String) :
    (c.map (fun p => if p.1 = y then (p.1, p.2 + 1) else p)).map Prod.fst
      = c.map Prod.fst := by
  induction c with
  | nil => rfl
  | cons p ps ih =>
    by_cases hp : p.1 = y <;> simp [hp, ih]

lemma wf_counterIncr (c : Counter) (y : String) (h : Wf c) : Wf (counterIncr c y) := by
  unfold counterIncr
  by_cases hmem : counterMem c y
  · rw [if_pos hmem]
    unfold Wf
    rw [keys_map_incr]
    exact h
  · rw [Bool.not_eq_true] at hmem
    rw [if_neg (by simp [hmem])]
    unfold Wf
    rw [List.map_append]
    refine List.Nodup.append h (by simp) ?_
    intro k hk1 hk2
    simp only [List.map_cons, List.map_nil, List.mem_singleton] at hk2
    subst hk2
    exact absurd ((counterMem_iff c k).mpr hk1) (by simp [hmem])

lemma wf_foldl_incr (l : List String) (c : Counter) (h : Wf c) :
    Wf (l.foldl counterIncr c) := by
  induction l generalizing c with
  | nil => exact h
  | cons y ys ih => exact ih _ (wf_counterIncr c y h)

lemma wf_mkCounter (l : List String) : Wf (mkCounter l) :=
  wf_foldl_incr l [] (by simp [Wf])

/-! ## counterAdd lemmas -/

lemma counterAdd_filterMap_eq (a b : Counter) :
    Pos a →
    a.filterMap (fun p =>
        if 0 < p.2 + counterGet b p.1 then some (p.1, p.2 + counterGet b p.1) else none)
      = a.map (fun p => (p.1, p.2 + counterGet b p.1)) := by
  induction a with
  | nil => intro _; rfl
  | cons p ps ih =>
    intro ha
    have hp : 0 < p.2 + counterGet b p.1 :=
      Nat.lt_of_lt_of_le (ha p (by simp)) (Nat.le_add_right _ _)
    simp only [List.filterMap_cons, if_pos hp, List.map_cons]
    rw [ih (fun q hq => ha q (List.mem_cons_of_mem p hq))]

lemma counterMem_map_keep (a : Counter) (f : String × Nat → Nat) (x : String) :
    counterMem (a.map (fun p => (p.1, f p))) x = counterMem a x := by
  induction a with
  | nil => rfl
  | cons p ps ih =>
    by_cases hp : p.1 = x <;> simp [counterMem, hp, ih]

lemma keys_map_keep (a : Counter) (f : String × Nat → Nat) :
    (a.map (fun p => (p.1, f p))).map Prod.fst = a.map Prod.fst := by
  rw [List.map_map]
  rfl

lemma counterGet_map_add (a b : Counter) (x : String) :
    counterGet (a.map (fun p => (p.1, p.2 + counterGet b p.1))) x
      = counterGet a x + (if counterMem a x then counterGet b x else 0) := by
  induction a with
  | nil => simp [counterGet, counterMem]
  | cons p ps ih =>
    by_cases hp : p.1 = x
    · simp [counterGet, counterMem, hp]
    · simp [counterGet, counterMem, hp, ih]

lemma counterGet_filter_not_mem (a b : Counter) (x : String)
    (hb : Pos b) (hax : counterMem a x = false) :
    counterGet (b.filter (fun p => !counterMem a p.1 && decide (0 < p.2))) x
      = counterGet b x := by
  induction b with
  | nil => rfl
  | cons q qs ih =>
    have hqs : Pos qs := fun p hp => hb p (List.mem_cons_of_mem q hp)
    rw [List.filter_cons]
    by_cases hqx : q.1 = x
    · have hcond : (!counterMem a q.1 && decide (0 < q.2)) = true := by
        rw [hqx, hax]
        simp [hb q (by simp)]
      rw [if_pos hcond]
      simp only [counterGet, if_pos hqx]
    · by_cases hcond : (!counterMem a q.1 && decide (0 < q.2)) = true
      · rw [if_pos hcond]
        simp only [counterGet, if_neg hqx]
        exact ih hqs
      · rw [if_neg hcond]
        simp only [counterGet, if_neg hqx]
        exact ih hqs

lemma counterGet_counterAdd (a b : Counter) (x : String) (ha : Pos a) (hb : Pos b) :
    counterGet (counterAdd a b) x = counterGet a x + counterGet b x := by
  unfold counterAdd
  rw [counterAdd_filterMap_eq a b ha, counterGet_append,
    counterMem_map_keep a (fun p => p.2 + counterGet b p.1) x]
  by_cases hax : counterMem a x = true
  · rw [if_pos hax, counterGet_map_add, if_pos hax]
  · rw [Bool.not_eq_true] at hax
    rw [if_neg (by simp [hax]), counterGet_filter_not_mem a b x hb hax,
      counterGet_eq_zero_of_not_mem a x hax, Nat.zero_add]

lemma pos_counterAdd (a b : Counter) : Pos (counterAdd a b) := by
  intro p hp
  rcases List.mem_append.mp hp with h1 | h2
  · obtain ⟨q, hq, hfq⟩ := List.mem_filterMap.mp h1
    by_cases h0 : 0 < q.2 + counterGet b q.1
    · rw [if_pos h0] at hfq
      obtain rfl := Option.some.inj hfq
      exact h0
    · rw [if_neg h0] at hfq
      cases hfq
  · have hc := (List.mem_filter.mp h2).2
    simp only [Bool.and_eq_true, decide_eq_true_eq] at hc
    exact hc.2

lemma wf_counterAdd (a b : Counter) (ha : Pos a) (hwa : Wf a) (hwb : Wf b) :
    Wf (counterAdd a b) := by
  unfold counterAdd Wf
  rw [counterAdd_filterMap_eq a b ha, List.map_append,
    keys_map_keep a (fun p => p.2 + counterGet b p.1)]
  refine List.Nodup.append hwa ?_ ?_
  · exact List.Nodup.sublist ((List.filter_sublist _).map Prod.fst) hwb
  · intro k hk1 hk2
    obtain ⟨p, hp, rfl⟩ := List.mem_map.mp hk2
    have hcond := (List.mem_filter.mp hp).2
    simp only [Bool.and_eq_true, Bool.not_eq_true', decide_eq_true_eq] at hcond
    exact absurd ((counterMem_iff a p.1).mpr hk1) (by simp [hcond.1])

lemma pos_foldl_counterAdd (cs : List Counter) (c : Counter) (hc : Pos c) :
    Pos (cs.foldl counterAdd c) := by
  induction cs generalizing c with
  | nil => exact hc
  | cons d ds ih => exact ih _ (pos_counterAdd c d)

lemma wf_foldl_counterAdd (cs : List Counter) (c : Counter) (hc : Pos c) (hw : Wf c)
    (hcs : ∀ d ∈ cs, Wf d) : Wf (cs.foldl counterAdd c) := by
  induction cs generalizing c with
  | nil => exact hw
  | cons d ds ih =>
    exact ih _ (pos_counterAdd c d) (wf_counterAdd c d hc hw (hcs d (by simp)))
      (fun e he => hcs e (List.mem_cons_of_mem d he))

lemma counterGet_foldl_counterAdd (cs : List Counter) (c : Counter) (x : String)
    (hc : Pos c) (hcs : ∀ d ∈ cs, Pos d) :
    counterGet (cs.foldl counterAdd c) x
      = counterGet c x + (cs.map (fun d => counterGet d x)).sum := by
  induction cs generalizing c with
  | nil => simp
  | cons d ds ih =>
    rw [List.foldl_cons,
      ih _ (pos_counterAdd c d) (fun e he => hcs e (List.mem_cons_of_mem d he)),
      counterGet_counterAdd c d x hc (hcs d (by simp))]
    simp [Nat.add_assoc]

/-! ## Lookup is stable under permutation of a well-formed counter -/

lemma counterGet_of_mem (c : Counter) (p : String × Nat) (hw : Wf c) (hp : p ∈ c) :
    counterGet c p.1 = p.2 := by
  induction c with
  | nil => cases hp
  | cons q qs ih =>
    rw [Wf, List.map_cons, List.nodup_cons] at hw
    rcases List.mem_cons.mp hp with rfl | hmem
    · simp [counterGet]
    · have hq : ¬q.1 = p.1 := by
        intro hh
        exact hw.1 (hh ▸ List.mem_map_of_mem Prod.fst hmem)
      rw [counterGet, if_neg hq]
      exact ih hw.2 hmem

lemma counterMem_eq_of_perm (a b : Counter) (hp : a.Perm b) (x : String) :
    counterMem a x = counterMem b x := by
  have hiff := (hp.map Prod.fst).mem_iff (a := x)
  by_cases h : counterMem a x = true
  · rw [h, eq_comm, counterMem_iff]
    exact hiff.mp ((counterMem_iff a x).mp h)
  · rw [Bool.not_eq_true] at h
    rw [h, eq_comm, ← Bool.not_eq_true, counterMem_iff]
    intro hxb
    exact absurd ((counterMem_iff a x).mpr (hiff.mpr hxb)) (by simp [h])

lemma counterGet_eq_of_perm (a b : Counter) (hp : a.Perm b) (hwb : Wf b) (x : String) :
    counterGet a x = counterGet b x := by
  have hwa : Wf a := ((hp.map Prod.fst).nodup_iff).mpr hwb
  by_cases hb : counterMem b x = true
  · obtain ⟨p, hpb, rfl⟩ := List.mem_map.mp ((counterMem_iff b x).mp hb)
    rw [counterGet_of_mem b p hwb hpb, counterGet_of_mem a p hwa (hp.mem_iff.mpr hpb)]
  · rw [Bool.not_eq_true] at hb
    have hab : counterMem a x = false := by rw [counterMem_eq_of_perm a b hp x, hb]
    rw [counterGet_eq_zero_of_not_mem a x hab, counterGet_eq_zero_of_not_mem b x hb]

/-! ## array_split lemmas -/

lemma sum_splitSizes (len n : Nat) (hn : 1 ≤ n) : (splitSizes len n).sum = len := by
  have hmod : len % n < n := Nat.mod_lt _ hn
  have h1 : len % n * (len / n + 1) + (n - len % n) * (len / n)
      = (len % n + (n - len % n)) * (len / n) + len % n := by ring
  have h2 : len % n + (n - len % n) = n := by omega
  simp only [splitSizes, List.sum_append, List.sum_replicate, smul_eq_mul]
  rw [h1, h2, Nat.div_add_mod]

lemma pos_mem_splitSizes (len n : Nat) (hn : 1 ≤ n) (hlen : n ≤ len) :
    ∀ s ∈ splitSizes len n, 0 < s := by
  intro s hs
  have hq : 1 ≤ len / n :=
    (Nat.one_le_div_iff (Nat.lt_of_lt_of_le Nat.zero_lt_one hn)).mpr hlen
  rcases List.mem_append.mp hs with h | h <;>
    · have := List.eq_of_mem_replicate h
      omega

lemma takeChunks_map_length {α : Type} (sizes : List Nat) (l : List α)
    (h : sizes.sum ≤ l.length) :
    (takeChunks l sizes).map List.length = sizes := by
  induction sizes generalizing l with
  | nil => rfl
  | cons s ss ih =>
    rw [List.sum_cons] at h
    have h1 : (l.take s).length = s := by
      rw [List.length_take]
      omega
    have h2 : (takeChunks (l.drop s) ss).map List.length = ss := by
      apply ih
      rw [List.length_drop]
      omega
    simp [takeChunks, h1, h2]

lemma takeChunks_sum_counts {α : Type} (sizes : List Nat) (l : List α) (f : α → Nat) :
    ((takeChunks l sizes).map (fun ch => (ch.map f).sum)).sum
      = ((l.take sizes.sum).map f).sum := by
  induction sizes generalizing l with
  | nil => simp [takeChunks]
  | cons s ss ih =>
    simp only [takeChunks, List.map_cons, List.sum_cons]
    rw [ih (l.drop s), List.take_add, List.map_append, List.sum_append]

/-! ## parallel_counting and pySum lemmas -/

/-- Count that a pool result contributes for one ingredient. -/
def pvGet (v : PyVal) (x : String) : Nat :=
  match v with
  | PyVal.int _ => 0
  | PyVal.counter c => counterGet c x

lemma parallel_counting_nonempty (d : List String) (ds : List (List String)) :
    parallel_counting (d :: ds)
      = PyVal.counter ((ds.map mkCounter).foldl counterAdd (mkCounter d)) := rfl

lemma pvGet_parallel_counting (chunk : List (List String)) (x : String) :
    pvGet (parallel_counting chunk) x = (chunk.map (fun l => l.count x)).sum := by
  cases chunk with
  | nil => rfl
  | cons d ds =>
    have hpos : ∀ e ∈ ds.map mkCounter, Pos e := by
      intro e he
      obtain ⟨l, _, rfl⟩ := List.mem_map.mp he
      exact pos_mkCounter l
    rw [parallel_counting_nonempty]
    show counterGet ((ds.map mkCounter).foldl counterAdd (mkCounter d)) x = _
    rw [counterGet_foldl_counterAdd _ _ x (pos_mkCounter d) hpos, counterGet_mkCounter,
      List.map_map, List.map_cons, List.sum_cons]
    have hmc : ds.map ((fun d2 => counterGet d2 x) ∘ mkCounter)
        = ds.map (fun l => l.count x) :=
      List.map_congr_left (fun l _ => counterGet_mkCounter l x)
    rw [hmc]

lemma parallel_counting_poswf (chunk : List (List String)) (c : Counter)
    (h : parallel_counting chunk = PyVal.counter c) : Pos c ∧ Wf c := by
  cases chunk with
  | nil => simp [parallel_counting] at h
  | cons d ds =>
    rw [parallel_counting_nonempty] at h
    cases h
    have hwf : ∀ e ∈ ds.map mkCounter, Wf e := by
      intro e he
      obtain ⟨l, _, rfl⟩ := List.mem_map.mp he
      exact wf_mkCounter l
    exact ⟨pos_foldl_counterAdd _ _ (pos_mkCounter d),
      wf_foldl_counterAdd _ _ (pos_mkCounter d) (wf_mkCounter d) hwf⟩

lemma pySum_get (l : List PyVal) (acc t : Counter) (x : String)
    (hacc : Pos acc)
    (hl : ∀ c : Counter, PyVal.counter c ∈ l → Pos c)
    (h : pySum acc l = Except.ok t) :
    counterGet t x = counterGet acc x + (l.map (fun v => pvGet v x)).sum := by
  induction l generalizing acc with
  | nil =>
    simp only [pySum] at h
    cases h
    simp
  | cons v vs ih =>
    cases v with
    | int n => exact absurd h (by simp [pySum])
    | counter c =>
      simp only [pySum] at h
      rw [ih (counterAdd acc c) (pos_counterAdd acc c)
          (fun e he => hl e (List.mem_cons_of_mem _ he)) h,
        counterGet_counterAdd acc c x hacc (hl c (by simp))]
      simp only [List.map_cons, List.sum_cons, pvGet]
      omega

lemma pySum_poswf (l : List PyVal) (acc t : Counter)
    (hacc : Pos acc) (hwacc : Wf acc)
    (hl : ∀ c : Counter, PyVal.counter c ∈ l → Wf c)
    (h : pySum acc l = Except.ok t) : Pos t ∧ Wf t := by
  induction l generalizing acc with
  | nil =>
    simp only [pySum] at h
    cases h
    exact ⟨hacc, hwacc⟩
  | cons v vs ih =>
    cases v with
    | int n => exact absurd h (by simp [pySum])
    | counter c =>
      simp only [pySum] at h
      exact ih (counterAdd acc c) (pos_counterAdd acc c)
        (wf_counterAdd acc c hacc hwacc (hl c (by simp)))
        (fun e he => hl e (List.mem_cons_of_mem _ he)) h

lemma pySum_all_counter (l : List PyVal) (acc t : Counter)
    (h : pySum acc l = Except.ok t) :
    ∀ v ∈ l, ∃ c : Counter, v = PyVal.counter c := by
  induction l generalizing acc with
  | nil =>
    intro v hv
    cases hv
  | cons v vs ih =>
    cases v with
    | int n => exact absurd h (by simp [pySum])
    | counter c =>
      simp only [pySum] at h
      intro w hw
      rcases List.mem_cons.mp hw with rfl | hmem
      · exact ⟨c, rfl⟩
      · exact ih _ h w hmem

lemma pySum_ok_exists (l : List PyVal) (acc : Counter)
    (h : ∀ v ∈ l, ∃ c : Counter, v = PyVal.counter c) :
    ∃ t, pySum acc l = Except.ok t := by
  induction l generalizing acc with
  | nil => exact ⟨acc, rfl⟩
  | cons v vs ih =>
    obtain ⟨c, rfl⟩ := h v (by simp)
    simp only [pySum]
    exact ih (counterAdd acc c) (fun w hw => h w (List.mem_cons_of_mem _ hw))

/-! ## ingredients_counter lemmas -/

lemma ingredients_counter_eq_ok (cores : Nat) (data : List (List String)) (total : Counter)
    (hps : pySum [] ((array_split data cores).map parallel_counting) = Except.ok total) :
    ingredients_counter cores data
      = Except.ok (List.insertionSort descByCount total) := by
  unfold ingredients_counter
  rw [hps]

lemma ingredients_counter_eq_error (cores : Nat) (data : List (List String)) (e : String)
    (hps : pySum [] ((array_split data cores).map parallel_counting) = Except.error e) :
    ingredients_counter cores data = Except.error e := by
  unfold ingredients_counter
  rw [hps]

/-- Master lemma: a successful run of `ingredients_counter` computes,
for every ingredient, its total number of occurrences in the dataset. -/
lemma ingredients_counter_get (cores : Nat) (data : List (List String)) (r : Counter)
    (hc : 1 ≤ cores) (h : ingredients_counter cores data = Except.ok r) (x : String) :
    counterGet r x = (data.map (fun l => l.count x)).sum := by
  cases hps : pySum [] ((array_split data cores).map parallel_counting) with
  | error e =>
    rw [ingredients_counter_eq_error cores data e hps] at h
    cases h
  | ok total =>
    rw [ingredients_counter_eq_ok cores data total hps] at h
    obtain rfl := Except.ok.inj h
    have hcounters : ∀ c : Counter,
        PyVal.counter c ∈ (array_split data cores).map parallel_counting → Pos c ∧ Wf c := by
      intro c hcmem
      obtain ⟨chunk, _, hpc⟩ := List.mem_map.mp hcmem
      exact parallel_counting_poswf chunk c hpc
    have hwt : Pos total ∧ Wf total :=
      pySum_poswf _ [] total (by simp [Pos]) (by simp [Wf])
        (fun c hc2 => (hcounters c hc2).2) hps
    have hget := pySum_get _ [] total x (by simp [Pos])
      (fun c hc2 => (hcounters c hc2).1) hps
    rw [counterGet_eq_of_perm _ total (List.perm_insertionSort descByCount total) hwt.2 x,
      hget]
    simp only [counterGet, List.map_map, Nat.zero_add]
    have hcong : (array_split data cores).map ((fun v => pvGet v x) ∘ parallel_counting)
        = (array_split data cores).map (fun chunk => (chunk.map (fun l2 => l2.count x)).sum) :=
      List.map_congr_left (fun chunk _ => pvGet_parallel_counting chunk x)
    rw [hcong]
    unfold array_split
    rw [takeChunks_sum_counts, sum_splitSizes data.length cores hc, List.take_length]

lemma ingredients_counter_ok (cores : Nat) (data : List (List String))
    (hc : 1 ≤ cores) (hs : ∀ s ∈ splitSizes data.length cores, 0 < s) :
    ∃ r, ingredients_counter cores data = Except.ok r := by
  have hlen : (splitSizes data.length cores).sum ≤ data.length :=
    le_of_eq (sum_splitSizes data.length cores hc)
  have hlens := takeChunks_map_length (splitSizes data.length cores) data hlen
  have hnonempty : ∀ chunk ∈ array_split data cores, chunk ≠ [] := by
    intro chunk hchunk
    have hmem : chunk.length ∈ splitSizes data.length cores := by
      rw [← hlens]
      exact List.mem_map_of_mem List.length hchunk
    exact List.length_pos.mp (hs _ hmem)
  have hall : ∀ v ∈ (array_split data cores).map parallel_counting,
      ∃ c : Counter, v = PyVal.counter c := by
    intro v hv
    obtain ⟨chunk, hchunk, rfl⟩ := List.mem_map.mp hv
    cases chunk with
    | nil => exact absurd rfl (hnonempty [] hchunk)
    | cons d ds => exact ⟨_, parallel_counting_nonempty d ds⟩
  obtain ⟨t, ht⟩ := pySum_ok_exists _ [] hall
  exact ⟨_, ingredients_counter_eq_ok cores data t ht⟩

lemma sizes_pos_of_ok (cores : Nat) (data : List (List String)) (r : Counter)
    (hc : 1 ≤ cores) (h : ingredients_counter cores data = Except.ok r) :
    ∀ s ∈ splitSizes data.length cores, 0 < s := by
  cases hps : pySum [] ((array_split data cores).map parallel_counting) with
  | error e =>
    rw [ingredients_counter_eq_error cores data e hps] at h
    cases h
  | ok total =>
    have hall := pySum_all_counter _ [] total hps
    intro s hs
    have hlen : (splitSizes data.length cores).sum ≤ data.length :=
      le_of_eq (sum_splitSizes data.length cores hc)
    have hlens := takeChunks_map_length (splitSizes data.length cores) data hlen
    rw [← hlens] at hs
    obtain ⟨chunk, hchunk, rfl⟩ := List.mem_map.mp hs
    cases chunk with
    | nil =>
      obtain ⟨c, hcc⟩ :=
        hall (parallel_counting []) (List.mem_map_of_mem parallel_counting hchunk)
      simp [parallel_counting] at hcc
    | cons d ds => simp

/-! ## Claims C1, C3, C4, C5 -/

/-- Claim C1, counterexample: the result of `ingredients_counter` is
not independent of the chunk count N.  On the one-record dataset
`[[a]]`, one chunk returns the mapping `a ↦ 1`, while two chunks leave
the second chunk empty, so its pandas sum is the integer 0 and the
reduce step raises `TypeError`. -/
theorem C1_cex :
    ingredients_counter 2 [["a"]] = Except.error typeError ∧
    ingredients_counter 1 [["a"]] = Except.ok [("a", 1)] ∧
    ingredients_counter 2 [["a"]] ≠ ingredients_counter 1 [["a"]] := by
  decide

/-- Claim C1 (amended): for every sequence of per-record ingredient
lists and every chunk count N with `1 ≤ N` and at most the number of
records (so that every chunk produced by `array_split` is nonempty),
splitting into N chunks, counting per chunk and merging the partial
counts yields exactly the same ingredient-to-count mapping as counting
with a single chunk: the result is independent of such N.  (For larger
N some chunk is empty and the computation raises `TypeError` instead.) -/
theorem C1_thm (data : List (List String)) (N : Nat) (h1 : 1 ≤ N) (h2 : N ≤ data.length) :
    ∃ r r1, ingredients_counter N data = Except.ok r ∧
      ingredients_counter 1 data = Except.ok r1 ∧
      ∀ x, counterGet r x = counterGet r1 x := by
  obtain ⟨r, hr⟩ := ingredients_counter_ok N data h1 (pos_mem_splitSizes data.length N h1 h2)
  have hlen1 : 1 ≤ data.length := Nat.le_trans h1 h2
  obtain ⟨r1, hr1⟩ := ingredients_counter_ok 1 data (Nat.le_refl 1)
    (pos_mem_splitSizes data.length 1 (Nat.le_refl 1) hlen1)
  refine ⟨r, r1, hr, hr1, fun x => ?_⟩
  rw [ingredients_counter_get N data r h1 hr x,
    ingredients_counter_get 1 data r1 (Nat.le_refl 1) hr1 x]

/-- Witness for C1: the amended theorem evaluated at N = 2 on a
two-record dataset. -/
theorem C1_witness :
    1 ≤ 2 ∧ 2 ≤ ([["a"], ["b"]] : List (List String)).length ∧
      (∃ r r1, ingredients_counter 2 [["a"], ["b"]] = Except.ok r ∧
        ingredients_counter 1 [["a"], ["b"]] = Except.ok r1 ∧
        ∀ x, counterGet r x = counterGet r1 x) :=
  ⟨by decide, by decide, C1_thm [["a"], ["b"]] 2 (by decide) (by decide)⟩

/-- Claim C3: the code does not return an empty mapping on an empty
dataset.  Every chunk of the empty dataset is empty, `parallel_counting`
returns the integer 0 for it, and `sum(counter_list, Counter())` raises
`TypeError` on `Counter() + 0` — so `ingredients_counter` fails instead
of returning an empty mapping (shown here for 1 and for 4 cores).  The
second half of the claim does hold: a record with an empty ingredient
list contributes nothing, `[[a], []]` and `[[a]]` give the same
mapping. -/
theorem C3_thm :
    ingredients_counter 1 [] = Except.error typeError ∧
    ingredients_counter 4 [] = Except.error typeError ∧
    ingredients_counter 1 [["a"], []] = Except.ok [("a", 1)] ∧
    ingredients_counter 1 [["a"]] = Except.ok [("a", 1)] := by
  decide

/-- Claim C4: every mapping returned by `ingredients_counter` is
ordered non-increasing by count; ties are unconstrained. -/
theorem C4_thm (cores : Nat) (data : List (List String)) (r : Counter)
    (h : ingredients_counter cores data = Except.ok r) :
    List.Pairwise descByCount r := by
  cases hps : pySum [] ((array_split data cores).map parallel_counting) with
  | error e =>
    rw [ingredients_counter_eq_error cores data e hps] at h
    cases h
  | ok total =>
    rw [ingredients_counter_eq_ok cores data total hps] at h
    obtain rfl := Except.ok.inj h
    exact List.sorted_insertionSort descByCount total

/-- Witness for C4: the sortedness theorem evaluated on a concrete
two-ingredient dataset. -/
theorem C4_witness :
    ingredients_counter 1 [["a", "b"], ["b"]] = Except.ok [("b", 2), ("a", 1)] ∧
    List.Pairwise descByCount [(("b" : String), 2), ("a", 1)] :=
  ⟨by decide, C4_thm 1 [["a", "b"], ["b"]] [("b", 2), ("a", 1)] (by decide)⟩

/-- Claim C5: permuting the records does not change the resulting
ingredient-to-count mapping; whenever the original order succeeds, the
permuted order succeeds with the very same counts for every key. -/
theorem C5_thm (cores : Nat) (data data2 : List (List String)) (hc : 1 ≤ cores)
    (hp : data.Perm data2) (r : Counter)
    (h : ingredients_counter cores data = Except.ok r) :
    ∃ r2, ingredients_counter cores data2 = Except.ok r2 ∧
      ∀ x, counterGet r2 x = counterGet r x := by
  have hlen : data2.length = data.length := (hp.length_eq).symm
  have hs2 : ∀ s ∈ splitSizes data2.length cores, 0 < s := by
    rw [hlen]
    exact sizes_pos_of_ok cores data r hc h
  obtain ⟨r2, hr2⟩ := ingredients_counter_ok cores data2 hc hs2
  refine ⟨r2, hr2, fun x => ?_⟩
  rw [ingredients_counter_get cores data2 r2 hc hr2 x,
    ingredients_counter_get cores data r hc h x]
  exact (List.Perm.sum_eq (hp.map (fun l => l.count x))).symm

/-- Witness for C5: the permutation theorem evaluated on a concrete
pair of mutually permuted datasets. -/
theorem C5_witness :
    (([["a"], ["b"]] : List (List String)).Perm [["b"], ["a"]]) ∧
    (∃ r2, ingredients_counter 1 [["b"], ["a"]] = Except.ok r2 ∧
      ∀ x, counterGet r2 x = counterGet [("a", 1), ("b", 1)] x) :=
  ⟨by decide, C5_thm 1 [["a"], ["b"]] [["b"], ["a"]] (by decide) (by decide)
    [("a", 1), ("b", 1)] (by decide)⟩

/-! ## Name-cleaning lemmas -/

lemma clean_foldl (names : List PyStr) (acc : List PyStr) :
    names.foldl (fun clean_names name => clean_names ++ [cleanName name]) acc
      = acc ++ names.map cleanName := by
  induction names generalizing acc with
  | nil => simp
  | cons n ns ih =>
    rw [List.foldl_cons, ih, List.map_cons]
    simp

lemma clean_eq_map (names : List PyStr) :
    clean_cuisine_names names = names.map cleanName := by
  simpa using clean_foldl names []

lemma cleanName_eq (name : PyStr) :
    cleanName name = if 0 < pyFind underscore (pyTitle name)
      then pyReplace (pyTitle name) underscore space else pyTitle name := rfl

lemma pyToUpper_ne95 (c : Nat) (h : pyIsAlpha c) : pyToUpper c ≠ 95 := by
  unfold pyToUpper
  rcases h with h | h
  · rw [if_neg (by omega)]
    omega
  · rw [if_pos h]
    omega

lemma pyToLower_ne95 (c : Nat) (h : pyIsAlpha c) : pyToLower c ≠ 95 := by
  unfold pyToLower
  rcases h with h | h
  · rw [if_pos h]
    omega
  · rw [if_neg (by omega)]
    omega

lemma titleHead_eq95 (b : Bool) (c : Nat) :
    ((if pyIsAlpha c then (if b then pyToLower c else pyToUpper c) else c) = 95) ↔ c = 95 := by
  by_cases ha : pyIsAlpha c
  · rw [if_pos ha]
    have h1 := pyToLower_ne95 c ha
    have h2 := pyToUpper_ne95 c ha
    have hc : ¬c = 95 := by rcases ha with h | h <;> omega
    cases b
    · simp [h2, hc]
    · simp [h1, hc]
  · rw [if_neg ha]

lemma mem95_titleAux (b : Bool) (s : PyStr) : 95 ∈ titleAux b s ↔ 95 ∈ s := by
  induction s generalizing b with
  | nil => simp [titleAux]
  | cons c cs ih =>
    simp only [titleAux, List.mem_cons, ih]
    constructor
    · rintro (h | h)
      · exact Or.inl ((titleHead_eq95 b c).mp h.symm).symm
      · exact Or.inr h
    · rintro (h | h)
      · exact Or.inl (((titleHead_eq95 b c).mpr h.symm).symm)
      · exact Or.inr h

lemma pyFind_eq_neg_one (ch : Nat) (s : PyStr) (h : ch ∉ s) : pyFind ch s = -1 := by
  induction s with
  | nil => rfl
  | cons x xs ih =>
    simp only [List.mem_cons, not_or] at h
    rw [pyFind, if_neg (fun hh => h.1 hh.symm), ih h.2]
    simp

lemma not_mem95_pyReplace (s : PyStr) : underscore ∉ pyReplace s underscore space := by
  unfold pyReplace underscore space
  intro h
  obtain ⟨x, _, hfx⟩ := List.mem_map.mp h
  by_cases h95 : x = 95
  · rw [if_pos h95] at hfx
    omega
  · rw [if_neg h95] at hfx
    exact h95 hfx

/-! ## Claims C2 and C10 -/

/-- Claim C2, counterexample: not every underscore is replaced by a
space.  The name `_a` title-cases to `_A`, whose first underscore sits
at index 0, so `find > 0` is false and the underscore survives in the
returned display name. -/
theorem C2_cex :
    clean_cuisine_names [pyOfString (r"_a")] = [pyOfString (r"_A")] ∧
    underscore ∈ pyOfString (r"_A") := by
  decide

/-- Claim C2 (amended): `clean_cuisine_names` maps every raw name
elementwise to `name.title()`, with all underscores replaced by spaces
exactly when the first underscore of the title-cased name sits at a
strictly positive index; a name whose first underscore is at index 0
keeps its underscores.  In particular `northern_american` becomes
`Northern American`, and names without underscores are simply
title-cased. -/
theorem C2_thm (names : List PyStr) :
    clean_cuisine_names names = names.map cleanName ∧
    (∀ name : PyStr, underscore ∉ name → cleanName name = pyTitle name) ∧
    (∀ name : PyStr, 0 < pyFind underscore (pyTitle name) →
      cleanName name = pyReplace (pyTitle name) underscore space ∧
        underscore ∉ cleanName name) ∧
    cleanName (pyOfString (r"northern_american")) = pyOfString (r"Northern American") ∧
    cleanName (pyOfString (r"italian")) = pyOfString (r"Italian") := by
  refine ⟨clean_eq_map names, ?_, ?_, by decide, by decide⟩
  · intro name hmem
    have h2 : (95 : Nat) ∉ pyTitle name := by
      rw [pyTitle, mem95_titleAux]
      simpa [underscore] using hmem
    have h3 : pyFind underscore (pyTitle name) = -1 := by
      simp only [underscore]
      exact pyFind_eq_neg_one 95 (pyTitle name) h2
    rw [cleanName_eq, if_neg (by rw [h3]; decide)]
  · intro name hcond
    rw [cleanName_eq, if_pos hcond]
    exact ⟨rfl, not_mem95_pyReplace (pyTitle name)⟩

/-- Witness for C2: the amended theorem evaluated on the names
`mexican` (no underscore) and `cajun_creole` (underscore at a positive
index). -/
theorem C2_witness :
    (underscore ∉ pyOfString (r"mexican")) ∧
    cleanName (pyOfString (r"mexican")) = pyTitle (pyOfString (r"mexican")) ∧
    0 < pyFind underscore (pyTitle (pyOfString (r"cajun_creole"))) ∧
    underscore ∉ cleanName (pyOfString (r"cajun_creole")) :=
  ⟨by decide, (C2_thm []).2.1 (pyOfString (r"mexican")) (by decide),
    by decide, ((C2_thm []).2.2.1 (pyOfString (r"cajun_creole")) (by decide)).2⟩

/-- Claim C10: `clean_cuisine_names` is an order-preserving elementwise
map: the output has exactly the length of the input, and the i-th
output name is `cleanName` of the i-th input name alone. -/
theorem C10_thm (names : List PyStr) :
    (clean_cuisine_names names).length = names.length ∧
    ∀ i : Nat, (clean_cuisine_names names)[i]? = (names[i]?).map cleanName := by
  rw [clean_eq_map names]
  exact ⟨List.length_map names cleanName, fun i => List.getElem?_map cleanName names i⟩

/-! ## Claims C6, C7, C9 -/

/-- Claim C6, counterexample: the dataset is modified after loading.
The statement `df[n_ingredients] = df[ingredients].str.len()` in the
main block appends a column, so the set of columns after it differs
from the set of columns as loaded. -/
theorem C6_cex :
    dfColumns (add_n_ingredients (DataFrame.mk [(r"greek")] [[(r"salt")]] []))
      ≠ dfColumns (DataFrame.mk [(r"greek")] [[(r"salt")]] []) := by
  decide

/-- Claim C6 (amended): the dataset is loaded once and its loaded
record fields (the cuisine label and the ingredient list of every
record) are never modified; however the run does mutate the dataframe
once, appending the derived column `n_ingredients` holding the length
of each ingredient list, so the column set grows by exactly that
column. -/
theorem C6_thm (df : DataFrame) :
    (add_n_ingredients df).cuisine = df.cuisine ∧
    (add_n_ingredients df).ingredients = df.ingredients ∧
    ((r"n_ingredients") ∉ df.extraCols.map Prod.fst →
      dfColumns (add_n_ingredients df) = dfColumns df ++ [(r"n_ingredients")]) := by
  unfold add_n_ingredients dfSetCol
  by_cases h : (r"n_ingredients") ∈ df.extraCols.map Prod.fst
  · rw [if_pos h]
    exact ⟨rfl, rfl, fun hn => absurd h hn⟩
  · rw [if_neg h]
    refine ⟨rfl, rfl, fun _ => ?_⟩
    unfold dfColumns
    simp

/-- Witness for C6: the amended theorem evaluated on a dataframe
without extra columns. -/
theorem C6_witness :
    dfColumns (add_n_ingredients (DataFrame.mk [] [] []))
      = dfColumns (DataFrame.mk [] [] []) ++ [(r"n_ingredients")] :=
  (C6_thm (DataFrame.mk [] [] [])).2.2 (by decide)

lemma os_makedirs_nil (fs : FileSys) : os_makedirs fs [] = fs := by
  simp [os_makedirs, prefixesOf]

lemma os_makedirs_mem (fs : FileSys) (p : List String) (hp : p ≠ []) :
    p ∈ os_makedirs fs p := by
  unfold os_makedirs
  by_cases h : p ∈ fs
  · exact List.mem_append.mpr (Or.inl h)
  · refine List.mem_append.mpr (Or.inr ?_)
    rw [List.mem_filter]
    constructor
    · unfold prefixesOf
      have hlen : 0 < p.length := List.length_pos.mpr hp
      refine List.mem_map.mpr ⟨p.length - 1, ?_, ?_⟩
      · rw [List.mem_range]
        omega
      · have hsucc : p.length - 1 + 1 = p.length := by omega
        rw [hsucc, List.take_length]
    · simp [os_path_exists, h]

lemma create_folder_exists (fs : FileSys) (p : List String) (h : p ∈ fs) :
    create_folder fs p = (fs, 0) := by
  unfold create_folder
  rw [if_pos (by simp [os_path_exists, h])]

lemma create_folder_mem (fs : FileSys) (p : List String) (hp : p ≠ []) :
    p ∈ (create_folder fs p).1 := by
  unfold create_folder
  by_cases h : p ∈ fs
  · rw [if_pos (by simp [os_path_exists, h])]
    exact h
  · rw [if_neg (by simp [os_path_exists, h])]
    exact os_makedirs_mem fs p hp

lemma create_folder_snd (fs : FileSys) (p : List String) :
    (create_folder fs p).2 = 0 := by
  unfold create_folder
  split <;> rfl

/-- Claim C7: `create_folder` is idempotent.  When the directory
already exists the call is a no-op returning 0; in every case a second
call on the same path performs no further change; and for a nonempty
path the directory exists after the first call. -/
theorem C7_thm (fs : FileSys) (p : List String) :
    (os_path_exists fs p = true → create_folder fs p = (fs, 0)) ∧
    create_folder (create_folder fs p).1 p = create_folder fs p ∧
    (p ≠ [] → os_path_exists (create_folder fs p).1 p = true) := by
  refine ⟨fun he => create_folder_exists fs p (by simpa [os_path_exists] using he), ?_, ?_⟩
  · by_cases hp : p = []
    · subst hp
      by_cases h : ([] : List String) ∈ fs
      · rw [create_folder_exists fs [] h]
        exact create_folder_exists fs [] h
      · have h1 : create_folder fs [] = (fs, 0) := by
          unfold create_folder
          rw [if_neg (by simp [os_path_exists, h]), os_makedirs_nil]
        rw [h1]
        exact h1
    · rw [create_folder_exists _ p (create_folder_mem fs p hp)]
      exact (Prod.ext_iff.mpr ⟨rfl, (create_folder_snd fs p).symm⟩)
  · intro hp
    simp [os_path_exists, create_folder_mem fs p hp]

/-- Witness for C7: idempotence evaluated on a concrete path in the
initially empty filesystem, plus the no-op case for an existing
directory. -/
theorem C7_witness :
    create_folder (create_folder [] [(r"home"), (r"figures")]).1 [(r"home"), (r"figures")]
      = create_folder [] [(r"home"), (r"figures")] ∧
    os_path_exists (create_folder [] [(r"home"), (r"figures")]).1
      [(r"home"), (r"figures")] = true ∧
    create_folder [[(r"home")]] [(r"home")] = ([[(r"home")]], 0) :=
  ⟨(C7_thm [] [(r"home"), (r"figures")]).2.1,
    (C7_thm [] [(r"home"), (r"figures")]).2.2 (by decide),
    (C7_thm [[(r"home")]] [(r"home")]).1 (by decide)⟩

/-- Claim C9: `create_folder` returns 0 on every input, whether or not
the directory already existed. -/
theorem C9_thm (fs : FileSys) (complete_path : List String) :
    (create_folder fs complete_path).2 = 0 :=
  create_folder_snd fs complete_path

/-! ## Claim C8: the pie chart input -/

lemma map_incr_id_of_not_mem (c : Counter) (y : String) (h : counterMem c y = false) :
    c.map (fun p => if p.1 = y then (p.1, p.2 + 1) else p) = c := by
  induction c with
  | nil => rfl
  | cons q qs ih =>
    rw [counterMem] at h
    by_cases hq : q.1 = y
    · rw [if_pos hq] at h
      exact absurd h (by simp)
    · rw [if_neg hq] at h
      simp only [List.map_cons, if_neg hq]
      rw [ih h]

lemma snd_sum_map_incr (c : Counter) (y : String) (hw : Wf c)
    (hmem : counterMem c y = true) :
    ((c.map (fun p => if p.1 = y then (p.1, p.2 + 1) else p)).map Prod.snd).sum
      = (c.map Prod.snd).sum + 1 := by
  induction c with
  | nil => simp [counterMem] at hmem
  | cons q qs ih =>
    rw [Wf, List.map_cons, List.nodup_cons] at hw
    rw [counterMem] at hmem
    by_cases hq : q.1 = y
    · have hqs : counterMem qs y = false := by
        rw [← Bool.not_eq_true, counterMem_iff]
        exact fun hy => hw.1 (hq ▸ hy)
      simp only [List.map_cons, if_pos hq, map_incr_id_of_not_mem qs y hqs, List.sum_cons]
      omega
    · rw [if_neg hq] at hmem
      simp only [List.map_cons, if_neg hq, List.sum_cons]
      rw [ih hw.2 hmem]
      omega

lemma snd_sum_counterIncr (c : Counter) (y : String) (hw : Wf c) :
    ((counterIncr c y).map Prod.snd).sum = (c.map Prod.snd).sum + 1 := by
  unfold counterIncr
  by_cases hmem : counterMem c y
  · rw [if_pos hmem]
    exact snd_sum_map_incr c y hw hmem
  · rw [Bool.not_eq_true] at hmem
    rw [if_neg (by simp [hmem])]
    simp

lemma snd_sum_foldl_incr (l : List String) (c : Counter) (hw : Wf c) :
    ((l.foldl counterIncr c).map Prod.snd).sum = (c.map Prod.snd).sum + l.length := by
  induction l generalizing c with
  | nil => simp
  | cons y ys ih =>
    rw [List.foldl_cons, ih _ (wf_counterIncr c y hw), snd_sum_counterIncr c y hw,
      List.length_cons]
    omega

/-- The counts of `Counter(l)` sum to the number of counted elements. -/
lemma snd_sum_mkCounter (l : List String) :
    ((mkCounter l).map Prod.snd).sum = l.length := by
  simpa using snd_sum_foldl_incr l [] (by simp [Wf])

lemma value_counts_snd_sum (col : List String) :
    ((value_counts col).map Prod.snd).sum = col.length := by
  rw [value_counts,
    List.Perm.sum_eq ((List.perm_insertionSort descByCount (mkCounter col)).map Prod.snd),
    snd_sum_mkCounter]

/-- Claim C8: the pie chart input is built from the cuisine frequency
table sorted by descending count as exactly six slices: the counts of
the top-5 cuisines and one final slice whose value is the sum of all
remaining counts, so the six slices sum to the total number of recipes;
the sixth label is Others. -/
theorem C8_thm (col : List String) (h5 : 5 ≤ (value_counts col).length) :
    (pieValues ((value_counts col).map Prod.snd)).length = 6 ∧
    (pieValues ((value_counts col).map Prod.snd)).sum = col.length ∧
    (pieValues ((value_counts col).map Prod.snd)).take 5
      = ((value_counts col).map Prod.snd).take 5 ∧
    (pieValues ((value_counts col).map Prod.snd))[5]?
      = some ((((value_counts col).map Prod.snd)).drop 5).sum ∧
    List.Pairwise descByCount (value_counts col) ∧
    (∀ names : List PyStr, 5 ≤ names.length →
      (pieNames names)[5]? = some (pyOfString (r"Others"))) := by
  set values : List Nat := (value_counts col).map Prod.snd with hv
  have hlen : values.length = (value_counts col).length := by
    rw [hv, List.length_map]
  have htake : (values.take 5).length = 5 := by
    rw [List.length_take]
    omega
  refine ⟨?_, ?_, ?_, ?_, List.sorted_insertionSort descByCount (mkCounter col), ?_⟩
  · rw [pieValues, top_cuisines, List.length_append, htake]
    rfl
  · rw [pieValues, top_cuisines, List.sum_append, List.sum_cons, List.sum_nil,
      Nat.add_zero, ← List.sum_append, List.take_append_drop, hv, value_counts_snd_sum]
  · rw [pieValues, top_cuisines]
    exact List.take_left' htake
  · rw [pieValues, top_cuisines, List.getElem?_append_right (le_of_eq htake), htake]
    rfl
  · intro names hnames
    have hn : (names.take 5).length = 5 := by
      rw [List.length_take]
      omega
    rw [pieNames, top_cuisines, List.getElem?_append_right (le_of_eq hn), hn]
    rfl

/-- Witness for C8: the pie-chart theorem evaluated on a six-cuisine
column and six names. -/
theorem C8_witness :
    (pieValues ((value_counts [(r"a"), (r"b"), (r"c"), (r"d"), (r"e"), (r"f")]).map
      Prod.snd)).length = 6 ∧
    (pieNames [pyOfString (r"a"), pyOfString (r"b"), pyOfString (r"c"), pyOfString (r"d"),
      pyOfString (r"e"), pyOfString (r"f")])[5]? = some (pyOfString (r"Others")) :=
  ⟨(C8_thm [(r"a"), (r"b"), (r"c"), (r"d"), (r"e"), (r"f")] (by decide)).1,
    (C8_thm [(r"a"), (r"b"), (r"c"), (r"d"), (r"e"), (r"f")] (by decide)).2.2.2.2.2
      [pyOfString (r"a"), pyOfString (r"b"), pyOfString (r"c"), pyOfString (r"d"),
        pyOfString (r"e"), pyOfString (r"f")] (by decide)⟩

end WhatsCooking
